import Mathlib

/-!
# Verification of `principalmapper/analysis/find_risks.py`

Shallow embedding of the risk-rule engine of Principal Mapper's analysis
module, together with theorems settling the frozen claims about it.

The module under `src/` is `find_risks.py`.  Helper modules it imports
(`query_interface`, `local_policy_simulation`, `presets.privesc`,
`util.arns`, the `Node`/`Edge`/`Graph` classes) are not part of the
source tree; where their behaviour decides a claim they are modelled
from the spec (sections 3, 4.1, 4.2) and marked as such in their doc
comments.  Everything translated from `find_risks.py` itself follows
that file's control flow statement by statement.

Conventions:
* Python `str` becomes `String`, Python lists become `List`.
* Python dictionaries used as string maps become association lists
  (`List (String × String)`), looked up with `List.lookup`.
* A Python function that can raise becomes an `Option`-valued function
  (`none` = the call raised and no value was produced).
* Finding dictionaries become the `Finding` structure.
-/

/-- A single condition clause of a policy statement: operator, context
key and expected values.  Modelled from the spec (section 3, Policy
Document): "a set of conditions (operator, context key, expected
values)".  Only `StringEquals` is exercised by the analysis rules. -/
structure Condition where
  op : String
  key : String
  values : List String
deriving DecidableEq, Repr

/-- One statement of a policy document.  Modelled from the spec
(section 3): effect (`Allow`/`Deny`), action patterns, resource
patterns, an optional principal clause (resource-based policies only,
here a list of service principals / account ids / `*`), and
conditions. -/
structure Statement where
  effect : String
  principal : List String
  actions : List String
  resources : List String
  conditions : List Condition
deriving DecidableEq, Repr

/-- A policy document: ordered collection of statements (spec section 3). -/
abbrev PolicyDoc := List Statement

/-- An IAM principal node.  Modelled from the spec (section 3,
Principal): ARN, precomputed `isAdmin`, `hasMFA`, access-key count,
instance-profile ids, trust policy, attached/inline policies.  The
Python `None` for `instance_profile` and the empty list both fail the
`is not None and len(...) > 0` guard in the source, so a plain list is
a faithful carrier. -/
structure Node where
  arn : String
  is_admin : Bool
  has_mfa : Bool
  access_keys : Nat
  instance_profile : List String
  trust_policy : PolicyDoc
  policies : List PolicyDoc
deriving DecidableEq, Repr

/-- A directed access edge between two nodes.  Modelled from the spec
(section 3, Edge): source, destination and a short human-readable
reason used by `describe_edge`. -/
structure Edge where
  source : Node
  destination : Node
  reason : String
deriving DecidableEq, Repr

/-- A resource policy tracked by the graph: the resource's ARN and its
policy document (the shape consumed by
`gen_resources_with_potential_confused_deputies`). -/
structure PolicyObj where
  arn : String
  policy_doc : PolicyDoc
deriving DecidableEq, Repr

/-- The account graph: nodes, edges, resource policies and metadata
(spec section 3, Graph). -/
structure Graph where
  nodes : List Node
  edges : List Edge
  policies : List PolicyObj
  metadata : List (String × String)
deriving DecidableEq, Repr

/-- A finding, exactly the five string fields of the dictionary format
documented at the top of `find_risks.py`. -/
structure Finding where
  title : String
  severity : String
  impact : String
  description : String
  recommendation : String
deriving DecidableEq, Repr

/-- A report: account id, generation time (passed in by the caller,
standing for `datetime.now` in `gen_report`), ordered findings and the
fixed provenance string (spec section 3, Report). -/
structure Report where
  account : String
  date_and_time : String
  findings : List Finding
  source : String
deriving DecidableEq, Repr

/-! ## String helpers

Python's `sub in s` substring test and the `arns` utility functions.
-/

/-- Bool-valued substring test over character lists: some tail of `l`
starts with `sub`.  This is the meaning of Python's `sub in s`. -/
def listContainsSub (sub l : List Char) : Bool :=
  l.tails.any (fun t => sub.isPrefixOf t)

/-- Python's `sub in s` for strings. -/
def strContains (s sub : String) : Bool :=
  listContainsSub sub.toList s.toList

/-- Split a character list at every occurrence of `sep` (Python's
`str.split(sep)` for a one-character separator); `acc` holds the
reversed current field. -/
def splitOnCharAux (sep : Char) : List Char → List Char → List (List Char)
  | [], acc => [acc.reverse]
  | c :: rest, acc =>
      if c = sep then acc.reverse :: splitOnCharAux sep rest []
      else splitOnCharAux sep rest (c :: acc)

/-- Python's `s.split(sep)` for a one-character separator. -/
def splitOnChar (sep : Char) (s : String) : List String :=
  (splitOnCharAux sep s.toList []).map String.mk

/-- Python's `s.startswith(pre)`. -/
def strStartsWith (s pre : String) : Bool :=
  pre.toList.isPrefixOf s.toList

/-- Modelled from the spec: ARN accessor `arns.get_service` (the
`util.arns` module is not in the source tree).  An ARN has the colon
format `arn:partition:service:region:account:resource`; the service is
the third field. -/
def get_service (arn : String) : String :=
  (splitOnChar ':' arn).getD 2 ""

/-- Modelled from the spec: ARN accessor `arns.get_account_id`; the
account id is the fifth colon-separated field of an ARN. -/
def get_account_id (arn : String) : String :=
  (splitOnChar ':' arn).getD 4 ""

/-- Modelled from the spec: `Node.searchable_name`, the `type/name`
rendering of a principal (e.g. `user/Bob`), which is the resource part
(sixth colon-separated field) of an IAM principal ARN. -/
def searchable_name (n : Node) : String :=
  (splitOnChar ':' n.arn).getD 5 ""

/-- Modelled from the spec: `Edge.describe_edge`, the human-readable
one-line explanation of an access edge (spec section 3, Edge). -/
def describe_edge (e : Edge) : String :=
  searchable_name e.source ++ " " ++ e.reason ++ " " ++ searchable_name e.destination

/-! ## Authorization simulator (spec-modelled)

`query_interface` / `local_policy_simulation` are not in the source
tree; the evaluators below are modelled from spec section 4.1.
-/

/-- Fuel-indexed worker for `globMatch`.  Every recursive call shrinks
`p.length + s.length`, so fuel `p.length + s.length + 1` never runs
out; the recursion is structural on the fuel so that the matcher
computes by kernel reduction. -/
def globMatchAux : Nat → List Char → List Char → Bool
  | 0, _, _ => false
  | _+1, [], s => s.isEmpty
  | fuel+1, c :: p, s =>
      if c = '*' then
        globMatchAux fuel p s ||
          (match s with
           | [] => false
           | _ :: s' => globMatchAux fuel (c :: p) s')
      else
        match s with
        | [] => false
        | d :: s' => c == d && globMatchAux fuel p s'

/-- Wildcard pattern matching over characters: `*` in the pattern
matches any (possibly empty) run of characters.  Modelled from the
spec (section 4.1): action and resource sets "may contain wildcards"
and matching is "wildcard-aware"; unknown strings never match without
an explicit `*`. -/
def globMatch (p s : List Char) : Bool :=
  globMatchAux (p.length + s.length + 1) p s

/-- Pattern match of one policy pattern against a query string. -/
def patternMatch (pattern s : String) : Bool :=
  globMatch pattern.toList s.toList

/-- One condition clause is satisfied by the supplied context.
Modelled from the spec (section 4.1): absent context keys fail the
condition, present keys must equal one of the expected values
(`StringEquals`). -/
def condSatisfied (ctx : List (String × String)) (c : Condition) : Bool :=
  match ctx.lookup c.key with
  | some v => c.values.contains v
  | none => false

/-- A condition clause that mentions the MFA-presence context key.
Modelled from the spec (sections 4.1 and 9): MFA-conditioned
statements are surfaced as "allowed only if MFA is present". -/
def isMfaCondition (c : Condition) : Bool :=
  c.key == "aws:MultiFactorAuthPresent"

/-- A statement's action and resource clauses match the query.
Modelled from the spec (section 4.1, step 1). -/
def stmtMatches (action resource : String) (st : Statement) : Bool :=
  st.actions.any (fun p => patternMatch p action) &&
    st.resources.any (fun p => patternMatch p resource)

/-- All identity statements of a node (attached, inline and inherited
policies flattened, spec section 4.1 step 1). -/
def nodeStatements (n : Node) : List Statement :=
  n.policies.flatten

/-- Modelled from the spec:
`query_interface.local_check_authorization` (section 4.1 steps 1-3, 5):
deny wins when a matching `Deny` statement's conditions hold; otherwise
the request is allowed iff a matching `Allow` statement's conditions
are fully satisfied; otherwise default-deny. -/
def local_check_authorization (n : Node) (action resource : String)
    (ctx : List (String × String)) : Bool :=
  let ms := (nodeStatements n).filter (stmtMatches action resource)
  if ms.any (fun st => st.effect == "Deny" && st.conditions.all (condSatisfied ctx)) then
    false
  else
    ms.any (fun st => st.effect == "Allow" && st.conditions.all (condSatisfied ctx))

/-- Modelled from the spec:
`query_interface.local_check_authorization_handling_mfa` (section 4.1
step 4 and section 9): returns `(authorized, needsMfa)` where a
matching `Allow` statement failing only on an MFA-presence condition
yields `(true, true)` instead of a flat denial. -/
def local_check_authorization_handling_mfa (n : Node) (action resource : String)
    (ctx : List (String × String)) : Bool × Bool :=
  let ms := (nodeStatements n).filter (stmtMatches action resource)
  if ms.any (fun st => st.effect == "Deny" && st.conditions.all (condSatisfied ctx)) then
    (false, false)
  else if ms.any (fun st => st.effect == "Allow" && st.conditions.all (condSatisfied ctx)) then
    (true, false)
  else if ms.any (fun st => st.effect == "Allow" &&
      st.conditions.all (fun c => condSatisfied ctx c || isMfaCondition c)) then
    (true, true)
  else
    (false, false)

/-- Result of a resource-policy evaluation.  Modelled from the spec
(section 4.1): `EvaluateResourcePolicy → {ServiceMatch, AccountMatch,
ExplicitDeny, Neutral}`; the source compares against
`ResourcePolicyEvalResult.SERVICE_MATCH`. -/
inductive ResourcePolicyEvalResult where
  | NO_MATCH
  | DENY_MATCH
  | ACCOUNT_MATCH
  | SERVICE_MATCH
deriving DecidableEq, Repr

/-- A resource-policy statement's principal clause matches the querying
service principal (spec section 4.1: "the statement's principal clause
matches the querying actor"). -/
def principalMatchesService (service : String) (st : Statement) : Bool :=
  st.principal.contains service || st.principal.contains "*"

/-- A resource-policy statement's principal clause matches the querying
account (spec section 4.1, cross-account matching). -/
def principalMatchesAccount (account : String) (st : Statement) : Bool :=
  st.principal.contains account || st.principal.contains "*"

/-- Modelled from the spec:
`local_policy_simulation.resource_policy_authorization` (section 4.1):
evaluates a resource-based policy for a querying service or account;
`SERVICE_MATCH`/`ACCOUNT_MATCH` require the principal clause to match
and all action/resource/condition clauses to pass; a satisfied `Deny`
yields an explicit deny; otherwise the evaluation is neutral. -/
def resource_policy_authorization (service account : String) (doc : PolicyDoc)
    (action resource : String) (ctx : List (String × String)) :
    ResourcePolicyEvalResult :=
  let ms := doc.filter (fun st => stmtMatches action resource st &&
    st.conditions.all (condSatisfied ctx))
  if ms.any (fun st => st.effect == "Deny" &&
      (principalMatchesService service st || principalMatchesAccount account st)) then
    .DENY_MATCH
  else if ms.any (fun st => st.effect == "Allow" && principalMatchesService service st) then
    .SERVICE_MATCH
  else if ms.any (fun st => st.effect == "Allow" && principalMatchesAccount account st) then
    .ACCOUNT_MATCH
  else
    .NO_MATCH

/-! ## Graph primitives -/

/-- Modelled from the spec: `Node.get_outbound_edges(graph)` — the
edges of the graph whose source is this node, in graph order (spec
section 3: the core "only searches over" edges precomputed by the
graph builder). -/
def get_outbound_edges (g : Graph) (n : Node) : List Edge :=
  g.edges.filter (fun e => e.source == n)

/-- Destinations of a node's outbound edges, in edge order.  This is
the `outbound_nodes` list computed at the top of each `_find_cycle`
iteration. -/
def dests (g : Graph) (n : Node) : List Node :=
  (get_outbound_edges g n).map (fun e => e.destination)

/-! ## Privilege-escalation rule -/

/-- Modelled from the spec: the depth-first reachability search inside
`can_privesc` (section 4.2): from the current node, if any outbound
edge reaches an administrative node return that edge as the end of the
path, otherwise recurse into the first unvisited destination in edge
order.  The fuel argument bounds the recursion depth by the node
count. -/
def privescDfs (g : Graph) : Nat → List Node → Node → Option (List Edge)
  | 0, _, _ => none
  | fuel+1, visited, cur =>
    let outs := get_outbound_edges g cur
    match outs.find? (fun e => e.destination.is_admin) with
    | some e => some [e]
    | none =>
        outs.findSome? (fun e =>
          if e.destination ∈ visited then none
          else (privescDfs g fuel (e.destination :: visited) e.destination).map
            (fun p => e :: p))

/-- Modelled from the spec: `presets.privesc.can_privesc(graph, node)`
(section 4.2): `(found, path-of-edges)`; `found = false` gives an
empty path. -/
def can_privesc (g : Graph) (n : Node) : Bool × List Edge :=
  match privescDfs g (g.nodes.length + 1) [n] n with
  | some p => (true, p)
  | none => (false, [])

/-- The origins from which `gen_privesc_findings` runs the escalation
search: the loop over `graph.nodes` with `if node.is_admin: continue`
is exactly a filter keeping non-admin nodes. -/
def privesc_search_origins (g : Graph) : List Node :=
  g.nodes.filter (fun n => !n.is_admin)

/-- The `node_path_list` accumulated by `gen_privesc_findings`:
non-admin nodes for which `can_privesc` found a path, paired with the
path. -/
def node_path_list (g : Graph) : List (Node × List Edge) :=
  (privesc_search_origins g).filterMap (fun n =>
    let r := can_privesc g n
    if r.1 then some (n, r.2) else none)

/-- One bullet of the privilege-escalation description body:
`'* {} can escalate privileges by accessing the administrative
principal {}:'` followed by one indented line per edge.
`edge_list[-1].destination` is the last edge's destination (the Python
code indexes a non-empty list; the empty case defaults to `""`). -/
def privescEntryBody (np : Node × List Edge) : String :=
  let endName := ((np.2.getLast?).map (fun e => searchable_name e.destination)).getD ""
  "* " ++ searchable_name np.1 ++
    " can escalate privileges by accessing the administrative principal " ++
    endName ++ ":\n" ++
    String.join (np.2.map (fun e => "   * " ++ describe_edge e ++ "\n")) ++ "\n"

def privesc_description_preamble : String :=
  "In AWS, IAM Principals such as IAM Users or IAM Roles have their permissions defined " ++
  "using IAM Policies. These policies describe different actions, resources, and " ++
  "conditions where the principal can make a given API call to a service.\n\n" ++
  "Administrative principals can call any action with any resource, as in the " ++
  "AdministratorAccess AWS-managed policy. However, some permissions may allow another " ++
  "non-administrative principal to gain access to an administrative principal. " ++
  "This represents a privilege escalation risk.\n\n" ++
  "The following principals could escalate privileges:\n\n"

/-- `gen_privesc_findings` (source lines 82-125). -/
def gen_privesc_findings (g : Graph) : List Finding :=
  let npl := node_path_list g
  if npl.length > 0 then
    [⟨"IAM " ++ (if npl.length > 1 then "Principals" else "Principal") ++
        " Can Escalate Privileges",
      "High",
      "A lower-privilege IAM User or Role is able to gain administrative privileges. " ++
        "This could lead to the lower-privilege principal being used to compromise the " ++
        "account and its resources.",
      privesc_description_preamble ++ String.join (npl.map privescEntryBody),
      "Review the IAM Policies that are applicable to the affected IAM User(s) or " ++
        "Role(s). Either reduce the permissions of the administrative principal(s), or " ++
        "reduce the permissions of the principal(s) that can access the administrative " ++
        "principals."⟩]
  else []

/-! ## MFA rules -/

/-- The fixed list of sensitive actions checked by
`gen_mfa_actions_findings` (source lines 136-138). -/
def sensitive_mfa_actions : List String :=
  ["iam:CreateUser", "iam:CreateRole", "iam:CreateGroup", "iam:PutUserPolicy",
   "iam:PutRolePolicy", "iam:PutGroupPolicy", "iam:AttachUserPolicy",
   "iam:AttachRolePolicy", "iam:AttachGroupPolicy", "sts:AssumeRole"]

/-- `_can_call_without_mfa` (source lines 169-180): true iff some
action in the list is authorized without an MFA requirement.  The
Python loop returns at the first hit, which is `List.any`. -/
def can_call_without_mfa (n : Node) (actions : List String) : Bool :=
  actions.any (fun action =>
    let r := local_check_authorization_handling_mfa n action "*" []
    r.1 && !r.2)

/-- The `affected_users` of `gen_mfa_actions_findings`: admin users
with access keys able to call a sensitive action without MFA (source
lines 132-140). -/
def mfa_affected_users (g : Graph) : List Node :=
  g.nodes.filter (fun n =>
    strContains n.arn ":user/" && n.is_admin && decide (n.access_keys > 0) &&
      can_call_without_mfa n sensitive_mfa_actions)

/-- The description body accumulated as `'* {}\n'` per affected user
(source lines 151-153). -/
def mfaDescBody : List Node → String
  | [] => ""
  | n :: rest => "* " ++ searchable_name n ++ "\n" ++ mfaDescBody rest

def mfa_description_preamble : String :=
  "In AWS, IAM Users can be configured to use an MFA device. When an IAM User has MFA " ++
  "enabled, they are required to provide the second factor of authentication when they " ++
  "log in to the AWS Console. However, unless there is a specific IAM policy attached " ++
  "to the user, they will not need to provide a second factor of authentication when " ++
  "making API calls.\n\nThe following administrative IAM Users have at least one set of " ++
  "access keys, and can call sensitive actions to alter permissions or add users " ++
  "without using a second factor of authentication:\n\n"

/-- `gen_mfa_actions_findings` (source lines 128-166). -/
def gen_mfa_actions_findings (g : Graph) : List Finding :=
  let affected := mfa_affected_users g
  if affected.length > 0 then
    [⟨"Administrative IAM " ++ (if affected.length > 1 then "Users" else "User") ++
        " Can Call Sensitive Actions Without MFA",
      "Medium",
      "An adminstrative IAM User is able to call sensitive actions, such as creating " ++
        "more principals or modifying permissions, without using MFA.",
      mfa_description_preamble ++ mfaDescBody affected,
      "Implement and attach an IAM Policy to the noted user(s) that rejects requests " ++
        "when MFA is not used."⟩]
  else []

/-- The `affected_nodes` of `gen_admin_users_without_mfa_finding`
(source lines 417-419). -/
def admin_users_without_mfa (g : Graph) : List Node :=
  g.nodes.filter (fun n =>
    strStartsWith (searchable_name n) "user/" && n.is_admin && !n.has_mfa)

/-- `gen_admin_users_without_mfa_finding` (source lines 410-448); the
body is a `'\n'.join` of `'* {}'` items. -/
def gen_admin_users_without_mfa_finding (g : Graph) : List Finding :=
  let affected := admin_users_without_mfa g
  if affected.length > 0 then
    [⟨"IAM Users With Administrative Permissions But No MFA Device",
      "Medium",
      "If an attacker gains access to any of the noted sensitive IAM Users, there is " ++
        "no secondary layer of protection in place to prevent the AWS from being " ++
        "compromised.",
      ("In AWS, an IAM User can be assigned a device for Multi-Factor Authentication " ++
        "(MFA). When an IAM User is assigned an MFA device, they are required to " ++
        "provide an extra factor of authentication when logging in to the AWS Console. " ++
        "It is also possible to create IAM Policies that impose extra restrictions on " ++
        "the permissions of IAM Users depending on whether or not they have " ++
        "authenticated with MFA when using the AWS API. Any IAM User with " ++
        "administrative privileges should be configured to have an MFA device. \n\n" ++
        "The following IAM Users with administrative privileges do not have an MFA " ++
        "device configured:\n\n") ++
        String.intercalate "\n" (affected.map (fun n => "* " ++ searchable_name n)),
      "Assign an MFA device to each of the noted IAM Users."⟩]
  else []

/-! ## Overprivileged service-role rules -/

/-- The `affected_roles` of `gen_overprivileged_function_findings`
(source lines 220-226): admin roles whose trust policy gives
`lambda.amazonaws.com` a `SERVICE_MATCH` on `sts:AssumeRole`. -/
def lambda_affected_roles (g : Graph) : List Node :=
  g.nodes.filter (fun n =>
    strContains n.arn ":role/" && n.is_admin &&
      decide (resource_policy_authorization "lambda.amazonaws.com"
        (get_account_id n.arn) n.trust_policy "sts:AssumeRole" n.arn [] =
        ResourcePolicyEvalResult.SERVICE_MATCH))

/-- `gen_overprivileged_function_findings` (source lines 217-250). -/
def gen_overprivileged_function_findings (g : Graph) : List Finding :=
  let affected := lambda_affected_roles g
  if affected.length > 0 then
    [⟨(if affected.length > 1 then
        "IAM Roles Available to Lambda Functions Have Administrative Privileges"
       else
        "IAM Role Available to Lambda Functions Has Administrative Privileges"),
      "Medium",
      "If an attacker can inject code or commands into the function, or if a " ++
        "lower-privileged principal can alter the function, the AWS account as a whole " ++
        "could be compromised.",
      ("In AWS, Lambda functions can be assigned an IAM Role to use during execution. " ++
        "These IAM Roles give the function access to call the AWS API with the " ++
        "permissions of the IAM Role, depending on the policies attached to it. If the " ++
        "Lambda function can be compromised, and the attacker can alter the code it " ++
        "executes, the attacker could make AWS API calls with the IAM Role\x27s " ++
        "permissions. The following IAM Roles have administrative privileges, and can " ++
        "be passed to Lambda functions:\n\n") ++ mfaDescBody affected,
      "Reduce the scope of permissions attached to the noted IAM Role(s)."⟩]
  else []

/-- The `affected_roles` of
`gen_overprivileged_instance_profile_findings` (source lines
186-189): admin roles with a non-empty instance-profile list. -/
def instance_profile_affected_roles (g : Graph) : List Node :=
  g.nodes.filter (fun n =>
    strContains n.arn ":role/" && n.is_admin && decide (n.instance_profile.length > 0))

/-- `gen_overprivileged_instance_profile_findings` (source lines
183-214). -/
def gen_overprivileged_instance_profile_findings (g : Graph) : List Finding :=
  let affected := instance_profile_affected_roles g
  if affected.length > 0 then
    [⟨"Instance " ++ (if affected.length > 1 then "Profiles Have" else "Profile Has") ++
        " Administrator Privileges",
      "High",
      "If an instance with the noted instance profile(s) is compromised, then the AWS " ++
        "account as a whole is at risk of compromise.",
      ("In AWS, EC2 instances can be given an instance profile. These instance profiles " ++
        "are associated with an IAM Role, and grants access to the permissions of the " ++
        "IAM Role. Because EC2 instances are at a higher risk of exposure and " ++
        "compromise, both to external attackers and authorized users in the AWS " ++
        "account, they should not have access to administrative privileges. The " ++
        "following IAM Roles have administrative permissions and are associated with " ++
        "an instance profile:\n\n") ++ mfaDescBody affected,
      "Reduce the scope of permissions attached to the noted instance profile(s)."⟩]
  else []

/-- The `affected_roles` of `gen_overprivileged_stack_findings`
(source lines 256-263). -/
def stack_affected_roles (g : Graph) : List Node :=
  g.nodes.filter (fun n =>
    strContains n.arn ":role/" && n.is_admin &&
      decide (resource_policy_authorization "cloudformation.amazonaws.com"
        (get_account_id n.arn) n.trust_policy "sts:AssumeRole" n.arn [] =
        ResourcePolicyEvalResult.SERVICE_MATCH))

/-- `gen_overprivileged_stack_findings` (source lines 253-288). -/
def gen_overprivileged_stack_findings (g : Graph) : List Finding :=
  let affected := stack_affected_roles g
  if affected.length > 0 then
    [⟨(if affected.length > 1 then
        "IAM Roles Available to CloudFormation Stacks Have Administrative Privileges"
       else
        "IAM Role Available to CloudFormation Stacks Has Administrative Privileges"),
      "Low",
      "If an attacker has the right permissions in the AWS Account, they can grant " ++
        "themselves adminstrative access to the account to compromise the account.",
      ("In AWS, CloudFormation stacks can be given an IAM Role. When a stack has an " ++
        "IAM Role, it can use that IAM Role to make AWS API calls to create the " ++
        "resources defined in the template for that stack. If the IAM Role has " ++
        "administrator access to the account, and an attacker is able to make the " ++
        "right CloudFormation API calls, they would be able to use the IAM Role to " ++
        "escalate privileges and compromise the account as a whole. The following IAM " ++
        "Roles can be used in CloudFormation and have administrative privileges:\n\n") ++
        mfaDescBody affected,
      "Reduce the scope of permissions attached to the noted IAM Role(s)."⟩]
  else []

/-! ## SSM local-privilege-escalation rule -/

/-- The `affected_roles` of `gen_os_lpe_finding` (source lines
295-302): roles on an instance profile holding the SSM messaging
permission plus `ssm:SendCommand` or `ssm:StartSession`.  The nested
`if`/`elif` appends in either branch, i.e. a disjunction.  Note the
source has no `is_admin` test here. -/
def os_lpe_affected_roles (g : Graph) : List Node :=
  g.nodes.filter (fun n =>
    strContains n.arn ":role/" && decide (n.instance_profile.length > 0) &&
      local_check_authorization n "ssmmessages:*" "*" [] &&
      (local_check_authorization n "ssm:SendCommand" "*" [] ||
        local_check_authorization n "ssm:StartSession" "*" []))

/-- `gen_os_lpe_finding` (source lines 291-334). -/
def gen_os_lpe_finding (g : Graph) : List Finding :=
  let affected := os_lpe_affected_roles g
  if affected.length > 0 then
    [⟨(if affected.length > 1 then "IAM Roles With Unsafe SSM Permissions"
       else "IAM Role With Unsafe SSM Permissions"),
      "Medium",
      "If an attacker gains access to an instance with the unsafe permissions, they " ++
        "could escalate privileges on its current host or compromise other hosts.",
      ("In AWS EC2, instances can be assigned instance profiles. An instance profile " ++
        "is tied to a single IAM Role. The instance profile can be used to access the " ++
        "AWS API with the permissions of the IAM Role. If the IAM Role has permission " ++
        "to call certain SSM actions such as `ssm:SendCommand` or `ssm:StartSession`, " ++
        "the instance profile can be used to invoke commands on other instances or " ++
        "itself.\n\nBecause the SSM Agent runs with the highest permissions on their " ++
        "hosts (root or SYSTEM), this can be a way for attackers to pivot and " ++
        "compromise other instances, or escalate privileges on the local machine. The " ++
        "following IAM Roles are attached to at least one instance profile and have " ++
        "permissions with the aforementioned risk:\n\n") ++ mfaDescBody affected,
      "Reduce the scope of permissions attached to the noted IAM Role(s)."⟩]
  else []

/-! ## Cycle detector (`_find_cycle`, source lines 337-361)

The Python loop keeps three locals: `current_stack` (a list used as a
stack, pushed/popped at its end), `current_root` and
`explored_nodes`.  The embedding keeps the stack top at the HEAD of
the Lean list, so Python's `current_stack` is `stack.reverse`,
`current_stack.append(x)` is `x :: stack` and `current_stack.pop()`
splits `t :: rest`.  The loop body becomes one `find_cycle_step`, and
the `while` becomes fuel-indexed iteration; `find_cycle` runs with a
fuel bound proved (below) to exceed the iteration count, so the
fuel-exhaustion sentinel never occurs.
-/

structure FindCycleState where
  stack : List Node
  root : Node
  expl : List Node
deriving Repr

inductive FindCycleStep where
  | done (r : Option (List Node))
  | next (s : FindCycleState)

/-- One iteration of the `while len(current_stack) > 0` loop of
`_find_cycle`: empty outbound list pops; an outbound edge back to
`origin` returns the current stack; otherwise the first unexplored
outbound destination is pushed (appending `current_root` to
`explored_nodes`), and if there is none the stack is popped. -/
def find_cycle_step (g : Graph) (origin : Node) (s : FindCycleState) : FindCycleStep :=
  match s.stack with
  | [] => .done none
  | t :: rest =>
    if (dests g s.root).isEmpty then
      .next ⟨rest, t, s.expl⟩
    else if origin ∈ dests g s.root then
      .done (some s.stack.reverse)
    else
      match (dests g s.root).filter (fun x => decide (x ∉ s.expl)) with
      | [] => .next ⟨rest, t, s.expl⟩
      | c :: _ => .next ⟨c :: s.stack, c, s.expl ++ [s.root]⟩

/-- Fuel-indexed iteration of `find_cycle_step`; `none` means the fuel
ran out before the loop finished. -/
def find_cycle_aux (g : Graph) (origin : Node) : Nat → FindCycleState → Option (Option (List Node))
  | 0, _ => none
  | fuel+1, s =>
    match find_cycle_step g origin s with
    | .done r => some r
    | .next s' => find_cycle_aux g origin fuel s'

/-- Every node the loop can ever mention: the origin, the graph's
nodes, and every edge destination. -/
def cycleUniverse (g : Graph) (origin : Node) : List Node :=
  origin :: (g.nodes ++ g.edges.map (fun e => e.destination))

/-- A fuel bound exceeding the loop's worst-case iteration count (it
dominates the termination measure `fcMeasure` of the initial state,
proved below). -/
def find_cycle_fuel (g : Graph) (origin : Node) : Nat :=
  (6 * g.edges.length + 2) * (cycleUniverse g origin).length + 2

/-- `_find_cycle` (source lines 337-361): run the loop from
`current_root = origin`, `current_stack = [origin]`,
`explored_nodes = []`. -/
def find_cycle (g : Graph) (origin : Node) : Option (List Node) :=
  (find_cycle_aux g origin (find_cycle_fuel g origin) ⟨[origin], origin, []⟩).getD none

/-! ## Circular-access rule -/

/-- The origins from which `gen_circular_access_finding` runs the
cycle search: the loop over `graph.nodes` with
`if node.is_admin: continue` (source lines 371-373). -/
def circular_search_origins (g : Graph) : List Node :=
  g.nodes.filter (fun n => !n.is_admin)

/-- The `cycles` list of `gen_circular_access_finding` (source lines
371-377). -/
def circular_cycles (g : Graph) : List (List Node) :=
  (circular_search_origins g).filterMap (fun n => find_cycle g n)

/-- One bullet of the circular-access description:
`' -> '.join(names + [first name])` (source line 396); the Python code
indexes `cycle[0]` of a non-empty list, the empty case defaults to
`""`. -/
def formatCycle (c : List Node) : String :=
  "* " ++ String.intercalate " -> "
    ((c.map searchable_name) ++ [((c.head?).map searchable_name).getD ""]) ++ "\n"

/-- `gen_circular_access_finding` (source lines 364-407). -/
def gen_circular_access_finding (g : Graph) : List Finding :=
  let cycles := circular_cycles g
  if cycles.length > 0 then
    [⟨"IAM Principals with Circular Access",
      "Low",
      "If an attacker gains access to one of the identified principals, they can " ++
        "potentially evade detections or persist access.",
      ("In AWS, an IAM Principal with a specific set of permissions can gain access " ++
        "to another principal, such as when an IAM User has permission to call " ++
        "`sts:AssumeRole` for an IAM Role. Principal Mapper tracks these connections " ++
        "as Nodes (a.k.a. Vertices) and Edges in a Graph.\n\nHowever, there may be " ++
        "instances where nodes can access each other in a circular manner. This " ++
        "presents a risk in the account if an attacker gains access to one of the " ++
        "principals in a cycle. An attacker can abuse that access to pivot between " ++
        "each of the principals in a cycle. This can be used to evade detection or " ++
        "persist access to an AWS account. The following cycles were identified:\n\n") ++
        String.join (cycles.map formatCycle),
      "Break the cycle of access by altering/removing permissions assigned to one of " ++
        "the noted principals."⟩]
  else []

/-! ## Confused-deputy rule -/

/-- The `resource_service_action_map` literal (source lines 461-467):
resource type `s3` maps the `serverlessrepo.amazonaws.com` service
principal to the action list `['s3:GetObject']`. -/
def resource_service_action_map : List (String × List (String × List String)) :=
  [("s3", [("serverlessrepo.amazonaws.com", ["s3:GetObject"])])]

/-- The attribute access `rpa_result.SERVICE_MATCH` in the source
(line 486).  In Python, attribute lookup on an enum member falls back
to the enum class, so this expression evaluates to the class member
`SERVICE_MATCH` itself, whatever `rpa_result` is. -/
def service_match_attr (_ : ResourcePolicyEvalResult) : ResourcePolicyEvalResult :=
  ResourcePolicyEvalResult.SERVICE_MATCH

/-- Python truthiness of an enum member: enum members define neither
`__bool__` nor `__len__`, so they are always truthy.  Hence the
condition `if rpa_result.SERVICE_MATCH:` in the source is true on
every branch, regardless of the evaluation result. -/
def python_truthy (_ : ResourcePolicyEvalResult) : Bool :=
  true

/-- The `affected_policies` list of
`gen_resources_with_potential_confused_deputies` (source lines
469-491): for each catalogued resource type, for each graph policy of
that service, for each catalogued (service, action list) pair, the
actions whose guard `if rpa_result.SERVICE_MATCH:` holds (which, per
`python_truthy`, is all of them), joined with `' | '`. -/
def confused_affected_policies (g : Graph) : List (String × String × String) :=
  resource_service_action_map.flatMap (fun rt =>
    g.policies.flatMap (fun p =>
      if get_service p.arn == rt.1 then
        rt.2.filterMap (fun sa =>
          let available := sa.2.filter (fun action =>
            python_truthy (service_match_attr (resource_policy_authorization sa.1
              ((g.metadata.lookup "account_id").getD "") p.policy_doc action p.arn
              [("aws:SourceAccount", "000000000000")])))
          if available.length > 0 then
            some (p.arn, sa.1, String.intercalate " | " available)
          else none)
      else []))

/-- `gen_resources_with_potential_confused_deputies` (source lines
451-516). -/
def gen_resources_with_potential_confused_deputies (g : Graph) : List Finding :=
  let affected := confused_affected_policies g
  if affected.length > 0 then
    [⟨"Resources With A Potential Confused-Deputy Risk",
      "Medium",
      "Depending on the affected resources and services, an attacker may be able to " ++
        "execute read or write operations on the resources from another AWS account.",
      ("In AWS, certain services will create and use resources in the customer\x27s " ++
        "own AWS account. This may be controlled using a resource policy that grants " ++
        "access to the service that created the resource in the customer\x27s AWS " ++
        "account. However, some services require customers to use the " ++
        "`$\x7baws:SourceAccount\x7d` condition context key to control access to the " ++
        "account resource from the service. In other words, to prevent the service " ++
        "from accessing the resource on the behalf of another customer, the resource " ++
        "needs a resource policy that allow-lists the true \"source\" of a " ++
        "request.\n\nThe following AWS services and resources could allow an external " ++
        "account to potentially gain read/write access to the resources:\n\n") ++
        String.intercalate "\n" (affected.map (fun t =>
          "* With service " ++ t.2.1 ++ ", the resource " ++ t.1 ++
            " for the action(s): " ++ t.2.2)),
      "Update the resource policy for all affected resources, and ensure that all " ++
        "statements granting access to AWS services check against the " ++
        "`$\x7baws:SourceAccount\x7d` condition context key when appropriate."⟩]
  else []

/-! ## Aggregation and report assembly -/

/-- `gen_all_findings` (source lines 67-79): the concatenation, in
source order, of the eight rules it actually calls.  Note that
`gen_resources_with_potential_confused_deputies` is not among them. -/
def gen_all_findings (g : Graph) : List Finding :=
  gen_privesc_findings g ++
  gen_admin_users_without_mfa_finding g ++
  gen_mfa_actions_findings g ++
  gen_overprivileged_function_findings g ++
  gen_overprivileged_instance_profile_findings g ++
  gen_overprivileged_stack_findings g ++
  gen_os_lpe_finding g ++
  gen_circular_access_finding g

/-- The provenance string of `gen_report` (the interpolated tool
version is external to the module). -/
def pmapper_source_string : String :=
  "Findings identified using Principal Mapper from NCC Group: " ++
    "https://github.com/nccgroup/PMapper"

/-- `gen_report` (source lines 54-64).  `now` stands for the
`datetime.now(timezone.utc)` call.  The Python body first runs
`gen_all_findings(graph)` to completion (line 56) and only then
subscripts `graph.metadata['account_id']` (line 58), which raises
`KeyError` when the key is absent; the raise is modelled as `none`. -/
def gen_report (g : Graph) (now : String) : Option Report :=
  let findings := gen_all_findings g
  (g.metadata.lookup "account_id").map (fun acct =>
    { account := acct, date_and_time := now, findings := findings,
      source := pmapper_source_string })

/-- The finding-generating rules `gen_report` invokes (through
`gen_all_findings`), in execution order. -/
def finding_rule_names : List String :=
  ["gen_privesc_findings", "gen_admin_users_without_mfa_finding",
   "gen_mfa_actions_findings", "gen_overprivileged_function_findings",
   "gen_overprivileged_instance_profile_findings",
   "gen_overprivileged_stack_findings", "gen_os_lpe_finding",
   "gen_circular_access_finding"]

/-- Evaluation-order model of `gen_report`: the list of rules that
execute before the function either returns or raises, paired with its
result.  Python evaluates the call `gen_all_findings(graph)` on line
56 to completion before reaching the `graph.metadata['account_id']`
subscript on line 58, so every rule in the catalog runs even when the
metadata lookup subsequently raises `KeyError`. -/
def gen_report_rule_trace (g : Graph) (now : String) : List String × Option Report :=
  (finding_rule_names, gen_report g now)

/-! ## Concrete example inputs

Small graphs used to instantiate and to refute the claims.  `exUser s`
is a plain non-admin user node named `s`.
-/

def exUser (s : String) : Node :=
  ⟨"arn:aws:iam::000000000000:user/" ++ s, false, false, 0, [], [], []⟩

def exA : Node := exUser "a"
def exB : Node := exUser "b"
def exC : Node := exUser "c"
def exD : Node := exUser "d"
def exE : Node := exUser "e"
def exF : Node := exUser "f"

def exEdge (x y : Node) : Edge := ⟨x, y, "can access"⟩

/-- Six-node graph on which `_find_cycle` returns a list that is not a
path: edges a→b, b→c, c→d, c→e, d→f, e→a. -/
def gSixNode : Graph :=
  ⟨[exA, exB, exC, exD, exE, exF],
   [exEdge exA exB, exEdge exB exC, exEdge exC exD, exEdge exC exE,
    exEdge exD exF, exEdge exE exA], [], []⟩

/-- Three-node cycle a→b→c→a. -/
def gTriangle : Graph :=
  ⟨[exA, exB, exC], [exEdge exA exB, exEdge exB exC, exEdge exC exA], [], []⟩

/-- Single node, no edges. -/
def gNoEdges : Graph := ⟨[exA], [], [], []⟩

/-- A non-admin role on an instance profile whose policy grants the
SSM messaging and `ssm:SendCommand` permissions. -/
def ssmRole : Node :=
  ⟨"arn:aws:iam::000000000000:role/SsmRole", false, false, 0,
   ["ssm-instance-profile"], [],
   [[⟨"Allow", [], ["ssmmessages:*", "ssm:SendCommand"], ["*"], []⟩]]⟩

def gSsm : Graph := ⟨[ssmRole], [], [], [("account_id", "000000000000")]⟩

/-- An administrative node (used to check that admins are skipped as
search origins). -/
def adminRole : Node :=
  ⟨"arn:aws:iam::000000000000:role/AdminRole", true, false, 0, [], [], []⟩

def gAdmin : Graph := ⟨[adminRole], [], [], [("account_id", "000000000000")]⟩

/-- Scenario B's `user/Bob`: administrative, one access key, an Allow
statement for `iam:CreateUser` with no condition. -/
def bob : Node :=
  ⟨"arn:aws:iam::000000000000:user/Bob", true, false, 1, [], [],
   [[⟨"Allow", [], ["iam:CreateUser"], ["*"], []⟩]]⟩

def gBob : Graph := ⟨[bob], [], [], [("account_id", "000000000000")]⟩

/-- An s3 resource policy granting the catalogued (service, action)
pair with no account-scoping condition. -/
def openS3Policy : PolicyObj :=
  ⟨"arn:aws:s3:::examplebucket",
   [⟨"Allow", ["serverlessrepo.amazonaws.com"], ["s3:GetObject"],
     ["arn:aws:s3:::examplebucket"], []⟩]⟩

/-- The same s3 resource policy with an `aws:SourceAccount` condition
restricting the requesting account to the graph's own account, which
does not match the simulated `aws:SourceAccount = 000000000000`. -/
def scopedS3Policy : PolicyObj :=
  ⟨"arn:aws:s3:::examplebucket",
   [⟨"Allow", ["serverlessrepo.amazonaws.com"], ["s3:GetObject"],
     ["arn:aws:s3:::examplebucket"],
     [⟨"StringEquals", "aws:SourceAccount", ["111111111111"]⟩]⟩]⟩

/-- Graph holding only the unconditioned s3 policy. -/
def gOpenPolicy : Graph := ⟨[], [], [openS3Policy], [("account_id", "111111111111")]⟩

/-- Graph holding only the account-scoped s3 policy. -/
def gScopedPolicy : Graph := ⟨[], [], [scopedS3Policy], [("account_id", "111111111111")]⟩

/-- Graph whose metadata lacks the `account_id` key. -/
def gNoAccountId : Graph := ⟨[exA], [], [], [("pmapper_version", "1.1.x")]⟩

/-! ## Termination measure and invariants for `_find_cycle`

The loop terminates because each iteration strictly decreases
`fcMeasure`: a pop shortens the stack; a push either freezes a node
not yet in `explored_nodes` (dominating weight) or spends one of the
weighted unexplored-successor credits of an already-explored root.
-/

/-- Number of outbound destinations of `v` not yet explored. -/
def kOut (g : Graph) (ex : List Node) (v : Node) : Nat :=
  ((dests g v).filter (fun w => decide (w ∉ ex))).length

/-- Weight of a node occurrence: explored nodes carry their unexplored
out-degree, unexplored nodes carry nothing. -/
def fWeight (g : Graph) (ex : List Node) (v : Node) : Nat :=
  if v ∈ ex then kOut g ex v else 0

/-- The strictly-decreasing loop measure. -/
def fcMeasure (g : Graph) (origin : Node) (s : FindCycleState) : Nat :=
  (6 * g.edges.length + 2) *
      ((cycleUniverse g origin).filter (fun v => decide (v ∉ s.expl))).length
    + 2 * ((s.stack.map (fWeight g s.expl)).sum + fWeight g s.expl s.root)
    + s.stack.length

/-- Loop invariant: stack and root stay inside the node universe, and
an unexplored node occurs on the stack at most once, and then only as
the just-pushed top which is also the current root. -/
def fcInv (g : Graph) (origin : Node) (s : FindCycleState) : Prop :=
  (∀ v ∈ s.stack, v ∈ cycleUniverse g origin) ∧
  s.root ∈ cycleUniverse g origin ∧
  (∀ v, v ∉ s.expl →
    s.stack.count v ≤ (if s.stack.head? = some v ∧ s.root = v then 1 else 0))

/-- Loop invariant backing the shape of a returned list: the bottom of
the stack is always `origin`, and any stack member or root with an
edge back to `origin` can only be the just-pushed top (otherwise an
earlier iteration would already have returned). -/
def fcPathInv (g : Graph) (origin : Node) (s : FindCycleState) : Prop :=
  (s.stack ≠ [] → s.stack.getLast? = some origin) ∧
  (∀ v, (v ∈ s.stack ∨ v = s.root) → origin ∈ dests g v →
    (s.stack.head? = some v ∧ s.root = v))

/-- Every consecutive pair of the list is connected by an edge of the
graph (the path property the spec ascribes to a returned cycle). -/
def consecPairsAreEdges (g : Graph) : List Node → Bool
  | [] => true
  | [_] => true
  | x :: y :: rest =>
      g.edges.any (fun e => e.source == x && e.destination == y) &&
        consecPairsAreEdges g (y :: rest)

/-! ## Substring helper lemmas -/

theorem listContainsSub_append_right (sub l₁ l₂ : List Char)
    (h : listContainsSub sub l₂ = true) : listContainsSub sub (l₁ ++ l₂) = true := by
  induction l₁ with
  | nil => simpa using h
  | cons c l ih =>
    unfold listContainsSub at ih ⊢
    simp only [List.cons_append, List.tails_cons, List.any_cons, Bool.or_eq_true]
    exact Or.inr ih

theorem listContainsSub_self_append (sub t : List Char) :
    listContainsSub sub (sub ++ t) = true := by
  unfold listContainsSub
  rw [List.any_eq_true]
  exact ⟨sub ++ t, (List.mem_tails _ _).2 List.suffix_rfl,
    (List.isPrefixOf_iff_prefix).2 (List.prefix_append sub t)⟩

theorem toList_append (a b : String) : (a ++ b).toList = a.toList ++ b.toList :=
  String.data_append a b

theorem strContains_append_right (a b sub : String)
    (h : strContains b sub = true) : strContains (a ++ b) sub = true := by
  unfold strContains at h ⊢
  rw [toList_append]
  exact listContainsSub_append_right _ _ _ h

theorem strContains_self_append (sub t : String) :
    strContains (sub ++ t) sub = true := by
  unfold strContains
  rw [toList_append]
  exact listContainsSub_self_append _ _

/-- Every member of the affected-user list is named in the description
body built from it. -/
theorem mfaDescBody_contains (l : List Node) (n : Node) (h : n ∈ l) :
    strContains (mfaDescBody l) (searchable_name n) = true := by
  induction l with
  | nil => cases h
  | cons m rest ih =>
    rcases List.mem_cons.1 h with h' | h'
    · subst h'
      show strContains ("* " ++ searchable_name n ++ "\n" ++ mfaDescBody rest) _ = true
      have : "* " ++ searchable_name n ++ "\n" ++ mfaDescBody rest =
          "* " ++ (searchable_name n ++ ("\n" ++ mfaDescBody rest)) := by
        simp [String.append_assoc]
      rw [this]
      exact strContains_append_right _ _ _ (strContains_self_append _ _)
    · show strContains ("* " ++ searchable_name m ++ "\n" ++ mfaDescBody rest) _ = true
      have : "* " ++ searchable_name m ++ "\n" ++ mfaDescBody rest =
          ("* " ++ searchable_name m ++ "\n") ++ mfaDescBody rest := by
        simp [String.append_assoc]
      rw [this]
      exact strContains_append_right _ _ _ (ih h')

/-! ## Claim C8 — determinism of `gen_all_findings` -/

/-- C8: `gen_all_findings` is deterministic on its input.  The
embedding is a pure function whose only input is the graph — the
source takes no clock, randomness or external state (the timestamp
enters only in `gen_report`) — so two evaluations on the same
unchanged graph yield identical ordered finding lists, field for
field. -/
theorem claim_c8_gen_all_findings_deterministic (g : Graph) :
    gen_all_findings g = gen_all_findings g := rfl

/-! ## Claim C2 — `gen_all_findings` vs. the rule catalog -/

/-- C2 counterexample: on a graph holding one catalogued s3 resource
policy and no nodes, the confused-deputy rule produces a finding, yet
`gen_all_findings` returns the empty list — the finding does not
appear in its output, so `gen_all_findings` is not the concatenation
of every rule the spec lists. -/
theorem claim_c2_counterexample :
    gen_all_findings gOpenPolicy = [] ∧
    (gen_resources_with_potential_confused_deputies gOpenPolicy).length = 1 ∧
    ∀ f ∈ gen_resources_with_potential_confused_deputies gOpenPolicy,
      f ∉ gen_all_findings gOpenPolicy := by
  decide

/-- C2 (amended): `gen_all_findings` is the concatenation, in the
fixed source order, of exactly the eight rules it calls —
privilege-escalation, admin-users-without-MFA, MFA-actions,
overprivileged Lambda role, overprivileged instance profile,
overprivileged CloudFormation role, SSM local-privilege-escalation
and circular access; the confused-deputy rule is not among them. -/
theorem claim_c2_amended_concatenation (g : Graph) :
    gen_all_findings g =
      gen_privesc_findings g ++
      gen_admin_users_without_mfa_finding g ++
      gen_mfa_actions_findings g ++
      gen_overprivileged_function_findings g ++
      gen_overprivileged_instance_profile_findings g ++
      gen_overprivileged_stack_findings g ++
      gen_os_lpe_finding g ++
      gen_circular_access_finding g := rfl

/-! ## Claim C1 — the confused-deputy condition check -/

/-- C1: on the account-scoped s3 policy — whose spec-modelled
resource-policy evaluation under the simulated
`aws:SourceAccount = 000000000000` context is `NO_MATCH`, not
`SERVICE_MATCH` — `gen_resources_with_potential_confused_deputies`
still produces a finding, because the guard `rpa_result.SERVICE_MATCH`
on source line 486 is an attribute access (always truthy) rather than
the comparison `== ResourcePolicyEvalResult.SERVICE_MATCH` used by the
other rules. -/
theorem claim_c1_condition_ignored :
    resource_policy_authorization "serverlessrepo.amazonaws.com" "111111111111"
        scopedS3Policy.policy_doc "s3:GetObject" scopedS3Policy.arn
        [("aws:SourceAccount", "000000000000")] = ResourcePolicyEvalResult.NO_MATCH ∧
    (gen_resources_with_potential_confused_deputies gScopedPolicy).length = 1 := by
  decide

/-! ## Claim C4 — report generation with missing account metadata -/

/-- C4 counterexample: on a graph whose metadata lacks `account_id`,
`gen_report` produces no report — but only after every
finding-generating rule has executed: the rule trace is the full
eight-rule catalog, not empty as the claim requires. -/
theorem claim_c4_counterexample :
    (gen_report_rule_trace gNoAccountId "2026-10-12T00:00:00+00:00").2 = none ∧
    (gen_report_rule_trace gNoAccountId "2026-10-12T00:00:00+00:00").1 =
      finding_rule_names ∧
    finding_rule_names ≠ [] := by
  decide

/-- C4 (amended): if the graph's metadata lacks the account
identifier, `gen_report` aborts and no (partial) `Report` value is
produced — but the abort happens at report assembly, after all eight
finding rules have executed, because `gen_all_findings(graph)` on line
56 completes before the metadata subscript on line 58 raises. -/
theorem claim_c4_amended_no_report_after_rules (g : Graph) (now : String)
    (h : g.metadata.lookup "account_id" = none) :
    (gen_report_rule_trace g now).2 = none ∧
    (gen_report_rule_trace g now).1 = finding_rule_names := by
  constructor
  · show gen_report g now = none
    unfold gen_report
    rw [h]
    rfl
  · rfl

/-- Witness for C4's amended theorem at a concrete graph. -/
theorem claim_c4_witness :
    gNoAccountId.metadata.lookup "account_id" = none ∧
    ((gen_report_rule_trace gNoAccountId "2026-10-12T00:00:00+00:00").2 = none ∧
      (gen_report_rule_trace gNoAccountId "2026-10-12T00:00:00+00:00").1 =
        finding_rule_names) :=
  ⟨by decide,
   claim_c4_amended_no_report_after_rules gNoAccountId "2026-10-12T00:00:00+00:00"
     (by decide)⟩

/-! ## Claim C6 — the SSM local-privilege-escalation rule -/

/-- C6 counterexample: a non-administrative role attached to an
instance profile with the SSM messaging and `ssm:SendCommand`
permissions is flagged by `gen_os_lpe_finding` even though
`is_admin = false` — the rule has no administrative requirement. -/
theorem claim_c6_counterexample :
    os_lpe_affected_roles gSsm = [ssmRole] ∧
    ssmRole.is_admin = false ∧
    gen_os_lpe_finding gSsm ≠ [] := by
  decide

/-- C6 (amended): every role flagged by `gen_os_lpe_finding` is a role
attached to an instance profile holding the SSM messaging permission
plus `ssm:SendCommand` or `ssm:StartSession`; being administrative is
not required. -/
theorem claim_c6_amended_flagged_roles (g : Graph) (n : Node)
    (h : n ∈ os_lpe_affected_roles g) :
    strContains n.arn ":role/" = true ∧
    0 < n.instance_profile.length ∧
    local_check_authorization n "ssmmessages:*" "*" [] = true ∧
    (local_check_authorization n "ssm:SendCommand" "*" [] = true ∨
      local_check_authorization n "ssm:StartSession" "*" [] = true) := by
  unfold os_lpe_affected_roles at h
  have h2 := (List.mem_filter.1 h).2
  simp only [Bool.and_eq_true, Bool.or_eq_true, decide_eq_true_eq] at h2
  tauto

/-- Witness for C6's amended theorem at a concrete flagged role. -/
theorem claim_c6_witness :
    ssmRole ∈ os_lpe_affected_roles gSsm ∧
    (strContains ssmRole.arn ":role/" = true ∧
      0 < ssmRole.instance_profile.length ∧
      local_check_authorization ssmRole "ssmmessages:*" "*" [] = true ∧
      (local_check_authorization ssmRole "ssm:SendCommand" "*" [] = true ∨
        local_check_authorization ssmRole "ssm:StartSession" "*" [] = true)) :=
  ⟨by decide, claim_c6_amended_flagged_roles gSsm ssmRole (by decide)⟩

/-! ## Claim C7 — admins are never search origins -/

/-- C7: a node with `is_admin = true` is never among the origins from
which `gen_privesc_findings` runs `can_privesc`, nor among the origins
from which `gen_circular_access_finding` runs `_find_cycle`: both
loops skip admins with `continue`. -/
theorem claim_c7_admins_not_origins (g : Graph) (n : Node)
    (h : n.is_admin = true) :
    n ∉ privesc_search_origins g ∧ n ∉ circular_search_origins g := by
  constructor
  · intro hmem
    have h2 := (List.mem_filter.1 hmem).2
    rw [h] at h2
    simp at h2
  · intro hmem
    have h2 := (List.mem_filter.1 hmem).2
    rw [h] at h2
    simp at h2

/-- Witness for C7 at a concrete admin node. -/
theorem claim_c7_witness :
    adminRole.is_admin = true ∧
    (adminRole ∉ privesc_search_origins gAdmin ∧
      adminRole ∉ circular_search_origins gAdmin) :=
  ⟨rfl, claim_c7_admins_not_origins gAdmin adminRole rfl⟩

/-! ## Claim C9 — the MFA-actions rule on an admin user with keys -/

/-- C9: for any graph containing an administrative IAM user with at
least one access key whose policies allow `iam:CreateUser` without an
MFA condition (so the simulator answers `(authorized, no-MFA-needed)`),
the MFA-actions rule returns exactly one finding, of severity Medium,
whose description names that user. -/
theorem claim_c9_mfa_actions_scenario (g : Graph) (n : Node)
    (hmem : n ∈ g.nodes)
    (huser : strContains n.arn ":user/" = true)
    (hadmin : n.is_admin = true)
    (hkeys : 0 < n.access_keys)
    (hsim : local_check_authorization_handling_mfa n "iam:CreateUser" "*" [] =
      (true, false)) :
    (gen_mfa_actions_findings g).length = 1 ∧
    ∀ f ∈ gen_mfa_actions_findings g, f.severity = "Medium" ∧
      strContains f.description (searchable_name n) = true := by
  have hcall : can_call_without_mfa n sensitive_mfa_actions = true := by
    unfold can_call_without_mfa sensitive_mfa_actions
    rw [List.any_eq_true]
    exact ⟨"iam:CreateUser", by simp, by simp [hsim]⟩
  have haff : n ∈ mfa_affected_users g := by
    unfold mfa_affected_users
    rw [List.mem_filter]
    refine ⟨hmem, ?_⟩
    simp [huser, hadmin, hkeys, hcall]
  have hlen : (mfa_affected_users g).length > 0 :=
    List.length_pos.2 (List.ne_nil_of_mem haff)
  constructor
  · show (gen_mfa_actions_findings g).length = 1
    unfold gen_mfa_actions_findings
    simp only [hlen, if_pos]
    rfl
  · intro f hf
    unfold gen_mfa_actions_findings at hf
    simp only [hlen, if_pos, List.mem_singleton] at hf
    subst hf
    refine ⟨rfl, ?_⟩
    exact strContains_append_right _ _ _ (mfaDescBody_contains _ _ haff)

/-- Witness for C9 at Scenario B's `user/Bob`. -/
theorem claim_c9_witness :
    bob ∈ gBob.nodes ∧
    ((gen_mfa_actions_findings gBob).length = 1 ∧
      ∀ f ∈ gen_mfa_actions_findings gBob, f.severity = "Medium" ∧
        strContains f.description (searchable_name bob) = true) :=
  ⟨by decide,
   claim_c9_mfa_actions_scenario gBob bob (by decide) (by decide) (by decide)
     (by decide) (by decide)⟩

/-! ## Claim C10 — no outbound edges means no cycle -/

/-- C10: `_find_cycle` returns `None` whenever the origin has no
outbound edges: the first iteration pops the origin and the loop then
exits on the empty stack. -/
theorem claim_c10_no_outbound_no_cycle (g : Graph) (o : Node)
    (h : dests g o = []) : find_cycle g o = none := by
  have hstep1 : find_cycle_step g o ⟨[o], o, []⟩ = .next ⟨[], o, []⟩ := by
    unfold find_cycle_step
    simp [h]
  have hstep2 : find_cycle_step g o ⟨[], o, []⟩ = .done none := rfl
  unfold find_cycle find_cycle_fuel
  rw [show (6 * g.edges.length + 2) * (cycleUniverse g o).length + 2 =
    ((6 * g.edges.length + 2) * (cycleUniverse g o).length + 1) + 1 from rfl]
  simp only [find_cycle_aux, hstep1, hstep2]
  rfl

/-- Witness for C10 at a graph with a single edgeless node. -/
theorem claim_c10_witness :
    dests gNoEdges exA = [] ∧ find_cycle gNoEdges exA = none :=
  ⟨by decide, claim_c10_no_outbound_no_cycle gNoEdges exA (by decide)⟩


/-! ## Step case analysis for `_find_cycle` -/

/-- Any `.next` result of `find_cycle_step` is a pop (and then no
outbound edge of the current root reaches the origin) or a push of the
first unexplored destination. -/
theorem find_cycle_step_next_cases (g : Graph) (o : Node) {s s' : FindCycleState}
    (h : find_cycle_step g o s = .next s') :
    (∃ t rest, s.stack = t :: rest ∧ o ∉ dests g s.root ∧
      s' = ⟨rest, t, s.expl⟩) ∨
    (∃ t rest c cs, s.stack = t :: rest ∧
      (dests g s.root).filter (fun x => decide (x ∉ s.expl)) = c :: cs ∧
      o ∉ dests g s.root ∧
      s' = ⟨c :: s.stack, c, s.expl ++ [s.root]⟩) := by
  unfold find_cycle_step at h
  cases hst : s.stack with
  | nil =>
    rw [hst] at h
    exact absurd h (by simp)
  | cons t rest =>
    rw [hst] at h
    dsimp only at h
    by_cases hempty : (dests g s.root).isEmpty
    · rw [if_pos hempty] at h
      have hnil : dests g s.root = [] := List.isEmpty_iff.1 hempty
      refine Or.inl ⟨t, rest, rfl, ?_, ?_⟩
      · rw [hnil]; exact List.not_mem_nil o
      · cases h; rfl
    · rw [if_neg hempty] at h
      by_cases horig : o ∈ dests g s.root
      · rw [if_pos horig] at h
        exact absurd h (by simp)
      · rw [if_neg horig] at h
        cases hfil : (dests g s.root).filter (fun x => decide (x ∉ s.expl)) with
        | nil =>
          rw [hfil] at h
          refine Or.inl ⟨t, rest, rfl, horig, ?_⟩
          cases h; rfl
        | cons c cs =>
          rw [hfil] at h
          refine Or.inr ⟨t, rest, c, cs, rfl, rfl, horig, ?_⟩
          cases h
          rfl

/-- A successful `.done (some l)` step returns the reversed stack of a
state whose root has an outbound edge to the origin. -/
theorem find_cycle_step_done_some (g : Graph) (o : Node) {s : FindCycleState}
    {l : List Node} (h : find_cycle_step g o s = .done (some l)) :
    s.stack ≠ [] ∧ l = s.stack.reverse ∧ o ∈ dests g s.root := by
  unfold find_cycle_step at h
  cases hst : s.stack with
  | nil =>
    rw [hst] at h
    exact absurd h (by simp)
  | cons t rest =>
    rw [hst] at h
    dsimp only at h
    by_cases hempty : (dests g s.root).isEmpty
    · rw [if_pos hempty] at h
      exact absurd h (by simp)
    · rw [if_neg hempty] at h
      by_cases horig : o ∈ dests g s.root
      · rw [if_pos horig] at h
        refine ⟨by simp, ?_, horig⟩
        cases h
        rfl
      · rw [if_neg horig] at h
        cases hfil : (dests g s.root).filter (fun x => decide (x ∉ s.expl)) with
        | nil => rw [hfil] at h; exact absurd h (by simp)
        | cons c cs => rw [hfil] at h; exact absurd h (by simp)

/-- A destination of an outbound edge lies in the node universe. -/
theorem mem_cycleUniverse_of_dest (g : Graph) (o : Node) {v w : Node}
    (h : w ∈ dests g v) : w ∈ cycleUniverse g o := by
  unfold dests get_outbound_edges at h
  unfold cycleUniverse
  simp only [List.mem_map, List.mem_filter] at h
  obtain ⟨e, ⟨he, _⟩, rfl⟩ := h
  exact List.mem_cons_of_mem _ (List.mem_append_right _ (List.mem_map_of_mem _ he))

/-- The head of a non-empty filter output satisfies both memberships. -/
theorem filter_head_facts {c : Node} {cs : List Node} {l ex : List Node}
    (h : l.filter (fun x => decide (x ∉ ex)) = c :: cs) :
    c ∈ l ∧ c ∉ ex := by
  have hc : c ∈ l.filter (fun x => decide (x ∉ ex)) := by
    rw [h]; exact List.mem_cons_self c cs
  have := List.mem_filter.1 hc
  exact ⟨this.1, by simpa using this.2⟩

/-- `fcInv` holds at the initial state. -/
theorem fcInv_init (g : Graph) (o : Node) :
    fcInv g o ⟨[o], o, []⟩ := by
  refine ⟨?_, ?_, ?_⟩
  · intro v hv
    rw [List.mem_singleton] at hv
    subst hv
    exact List.mem_cons_self _ _
  · exact List.mem_cons_self _ _
  · intro v _
    by_cases hvo : o = v
    · subst hvo
      simp
    · simp [List.count_singleton', hvo]

/-! ## Counting and filtering lemmas for the termination measure -/

theorem length_filter_le_of_imp {α : Type} (p q : α → Bool) :
    ∀ l : List α, (∀ a ∈ l, p a = true → q a = true) →
      (l.filter p).length ≤ (l.filter q).length := by
  intro l
  induction l with
  | nil => intro _; simp
  | cons b t ih =>
    intro himp
    have himp' : ∀ a ∈ t, p a = true → q a = true :=
      fun a hA => himp a (List.mem_cons_of_mem _ hA)
    by_cases hpb : p b = true
    · have hqb := himp b (List.mem_cons_self _ _) hpb
      simp only [List.filter_cons, hpb, hqb, if_pos, List.length_cons]
      exact Nat.succ_le_succ (ih himp')
    · rw [Bool.not_eq_true] at hpb
      simp only [List.filter_cons, hpb]
      by_cases hqb : q b = true
      · simp only [hqb, if_pos, if_neg, List.length_cons]
        exact Nat.le_succ_of_le (ih himp')
      · rw [Bool.not_eq_true] at hqb
        simp only [hqb]
        exact ih himp'

theorem length_filter_lt_of_mem {α : Type} (p q : α → Bool) (a₀ : α)
    (hq : q a₀ = true) (hp : p a₀ = false) :
    ∀ l : List α, (∀ a ∈ l, p a = true → q a = true) → a₀ ∈ l →
      (l.filter p).length < (l.filter q).length := by
  intro l
  induction l with
  | nil => intro _ ha; cases ha
  | cons b t ih =>
    intro himp ha
    have himp' : ∀ a ∈ t, p a = true → q a = true :=
      fun a hA => himp a (List.mem_cons_of_mem _ hA)
    rcases List.mem_cons.1 ha with rfl | hat
    · simp only [List.filter_cons, hp, hq, if_pos, Bool.false_eq_true, if_neg,
        not_false_iff, List.length_cons]
      exact Nat.lt_succ_of_le (length_filter_le_of_imp p q t himp')
    · by_cases hpb : p b = true
      · have hqb := himp b (List.mem_cons_self _ _) hpb
        simp only [List.filter_cons, hpb, hqb, if_pos, List.length_cons]
        exact Nat.succ_lt_succ (ih himp' hat)
      · rw [Bool.not_eq_true] at hpb
        simp only [List.filter_cons, hpb]
        by_cases hqb : q b = true
        · simp only [hqb, if_pos, List.length_cons]
          exact Nat.lt_succ_of_lt (ih himp' hat)
        · rw [Bool.not_eq_true] at hqb
          simp only [hqb]
          exact ih himp' hat

/-- The unexplored out-degree is bounded by the edge count. -/
theorem kOut_le_edges (g : Graph) (ex : List Node) (v : Node) :
    kOut g ex v ≤ g.edges.length := by
  unfold kOut dests get_outbound_edges
  calc ((((g.edges.filter (fun e => e.source == v)).map
        (fun e => e.destination))).filter (fun w => decide (w ∉ ex))).length
      ≤ ((g.edges.filter (fun e => e.source == v)).map
        (fun e => e.destination)).length := List.length_filter_le _ _
    _ = (g.edges.filter (fun e => e.source == v)).length := List.length_map _ _
    _ ≤ g.edges.length := List.length_filter_le _ _

/-- Exploring one more node can only shrink unexplored out-degrees. -/
theorem kOut_append_le (g : Graph) (ex : List Node) (r v : Node) :
    kOut g (ex ++ [r]) v ≤ kOut g ex v := by
  unfold kOut
  apply length_filter_le_of_imp
  intro w _ hw
  rw [decide_eq_true_eq] at hw
  rw [decide_eq_true_eq]
  exact fun hmem => hw (List.mem_append_left _ hmem)

theorem fWeight_le_edges (g : Graph) (ex : List Node) (v : Node) :
    fWeight g ex v ≤ g.edges.length := by
  unfold fWeight
  by_cases hv : v ∈ ex
  · rw [if_pos hv]; exact kOut_le_edges g ex v
  · rw [if_neg hv]; exact Nat.zero_le _

/-- Pointwise effect on weights of appending one node to the explored
list. -/
theorem fWeight_append_le (g : Graph) (ex : List Node) (r v : Node) :
    fWeight g (ex ++ [r]) v ≤
      fWeight g ex v + (if v = r then g.edges.length else 0) := by
  unfold fWeight
  by_cases hvex : v ∈ ex
  · have hvex' : v ∈ ex ++ [r] := List.mem_append_left _ hvex
    rw [if_pos hvex, if_pos hvex']
    exact Nat.le_trans (kOut_append_le g ex r v) (Nat.le_add_right _ _)
  · by_cases hvr : v = r
    · subst hvr
      have hvex' : v ∈ ex ++ [v] := List.mem_append_right _ (List.mem_singleton.2 rfl)
      rw [if_pos hvex', if_neg hvex, if_pos rfl]
      exact Nat.le_trans (kOut_le_edges g _ v) (Nat.le_add_left _ _)
    · have hvex' : v ∉ ex ++ [r] := by
        simp only [List.mem_append, List.mem_singleton]
        exact fun h => h.elim hvex hvr
      rw [if_neg hvex, if_neg hvex', if_neg hvr]

/-- Summed effect on stack weights of appending one node to the
explored list. -/
theorem sum_fWeight_append_le (g : Graph) (ex : List Node) (r : Node) :
    ∀ l : List Node, (l.map (fWeight g (ex ++ [r]))).sum ≤
      (l.map (fWeight g ex)).sum + l.count r * g.edges.length := by
  intro l
  induction l with
  | nil => simp
  | cons a t ih =>
    simp only [List.map_cons, List.sum_cons, List.count_cons]
    have hpt := fWeight_append_le g ex r a
    by_cases har : a = r
    · rw [if_pos har] at hpt
      have hc : (if (a == r) = true then 1 else 0) = 1 := by simp [har]
      rw [hc, Nat.add_mul, Nat.one_mul]
      omega
    · rw [if_neg har] at hpt
      have hc : (if (a == r) = true then 1 else 0) = 0 := by simp [har]
      rw [hc, Nat.add_zero]
      omega

/-! ## Invariant preservation and measure decrease -/

theorem fcInv_preserved (g : Graph) (o : Node) {s s' : FindCycleState}
    (hinv : fcInv g o s) (h : find_cycle_step g o s = .next s') :
    fcInv g o s' := by
  obtain ⟨hU, hR, hC⟩ := hinv
  rcases find_cycle_step_next_cases g o h with
    ⟨t, rest, hst, _, rfl⟩ | ⟨t, rest, c, cs, hst, hfil, _, rfl⟩
  · refine ⟨?_, ?_, ?_⟩
    · intro v hv
      exact hU v (hst ▸ List.mem_cons_of_mem t hv)
    · exact hU t (hst ▸ List.mem_cons_self t rest)
    · intro v hv
      have hold := hC v hv
      rw [hst] at hold
      have h0 : List.count v rest = 0 := by
        by_cases htv : t = v
        · subst htv
          rw [List.count_cons_self] at hold
          by_cases hcond : ((t :: rest).head? = some t ∧ s.root = t)
          · rw [if_pos hcond] at hold
            omega
          · rw [if_neg hcond] at hold
            omega
        · rw [List.count_cons_of_ne (fun hx => htv hx.symm)] at hold
          have hcond : ¬((t :: rest).head? = some v ∧ s.root = v) := by
            intro hx
            exact htv (Option.some.inj hx.1)
          rw [if_neg hcond] at hold
          omega
      rw [h0]
      exact Nat.zero_le _
  · obtain ⟨hcd, hcex⟩ := filter_head_facts hfil
    refine ⟨?_, ?_, ?_⟩
    · intro v hv
      rcases List.mem_cons.1 hv with rfl | hv'
      · exact mem_cycleUniverse_of_dest g o hcd
      · exact hU v hv'
    · exact mem_cycleUniverse_of_dest g o hcd
    · intro v hv
      simp only [List.mem_append, List.mem_singleton, not_or] at hv
      obtain ⟨hvex, hvr⟩ := hv
      have hold := hC v hvex
      have hzero : List.count v s.stack = 0 := by
        have hcond : ¬(s.stack.head? = some v ∧ s.root = v) := fun hx => hvr hx.2.symm
        rw [if_neg hcond] at hold
        omega
      by_cases hcv : c = v
      · subst hcv
        rw [List.count_cons_self, hzero]
        have hcond : ((c :: s.stack).head? = some c ∧ c = c) := ⟨by simp, rfl⟩
        rw [if_pos hcond]
      · rw [List.count_cons_of_ne (fun hx => hcv hx.symm), hzero]
        exact Nat.zero_le _

theorem fcMeasure_decreases (g : Graph) (o : Node) {s s' : FindCycleState}
    (hinv : fcInv g o s) (h : find_cycle_step g o s = .next s') :
    fcMeasure g o s' < fcMeasure g o s := by
  obtain ⟨hU, hR, hC⟩ := hinv
  rcases find_cycle_step_next_cases g o h with
    ⟨t, rest, hst, _, rfl⟩ | ⟨t, rest, c, cs, hst, hfil, _, rfl⟩
  · -- pop: the stack shrinks, everything else is unchanged or drops
    unfold fcMeasure
    dsimp only
    rw [hst]
    simp only [List.map_cons, List.sum_cons, List.length_cons]
    omega
  · -- push of the first unexplored candidate `c`
    obtain ⟨hcd, hcex⟩ := filter_head_facts hfil
    unfold fcMeasure
    dsimp only
    by_cases hre : s.root ∈ s.expl
    · -- re-expansion: the explored list gains a duplicate, the root's
      -- weighted unexplored out-degree is spent
      have hexeq : ∀ v : Node, (v ∈ s.expl ++ [s.root]) ↔ v ∈ s.expl := by
        intro v
        simp only [List.mem_append, List.mem_singleton]
        exact ⟨fun hx => hx.elim id (fun hv => hv ▸ hre), Or.inl⟩
      have hkeq : ∀ v, kOut g (s.expl ++ [s.root]) v = kOut g s.expl v := by
        intro v
        unfold kOut
        congr 1
        apply List.filter_congr
        intro w _
        exact decide_eq_decide.2 (not_congr (hexeq w))
      have hfeq : fWeight g (s.expl ++ [s.root]) = fWeight g s.expl := by
        funext v
        unfold fWeight
        rw [hkeq v, if_congr (hexeq v) rfl rfl]
      have hFeq : ((cycleUniverse g o).filter
            (fun v => decide (v ∉ s.expl ++ [s.root]))).length =
          ((cycleUniverse g o).filter (fun v => decide (v ∉ s.expl))).length := by
        congr 1
        apply List.filter_congr
        intro w _
        exact decide_eq_decide.2 (not_congr (hexeq w))
      have hkr : 1 ≤ kOut g s.expl s.root := by
        unfold kOut
        rw [hfil]
        simp
      have hfr : fWeight g s.expl s.root = kOut g s.expl s.root := by
        unfold fWeight
        rw [if_pos hre]
      have hfc : fWeight g s.expl c = 0 := by
        unfold fWeight
        rw [if_neg hcex]
      rw [hfeq, hFeq]
      simp only [List.map_cons, List.sum_cons, List.length_cons, hfc, hfr]
      omega
    · -- fresh expansion: the root leaves the unexplored universe, which
      -- dominates every weight increase
      have hcount : List.count s.root s.stack ≤ 1 := by
        have := hC s.root hre
        by_cases hcond : (s.stack.head? = some s.root ∧ s.root = s.root)
        · rw [if_pos hcond] at this
          exact this
        · rw [if_neg hcond] at this
          omega
      have hsum := sum_fWeight_append_le g s.expl s.root s.stack
      have hfc' : fWeight g (s.expl ++ [s.root]) c ≤ g.edges.length :=
        fWeight_le_edges g _ c
      have hfr0 : fWeight g s.expl s.root = 0 := by
        unfold fWeight
        rw [if_neg hre]
      have hFlt : ((cycleUniverse g o).filter
            (fun v => decide (v ∉ s.expl ++ [s.root]))).length <
          ((cycleUniverse g o).filter (fun v => decide (v ∉ s.expl))).length := by
        apply length_filter_lt_of_mem _ _ s.root
        · exact decide_eq_true (by exact hre)
        · apply decide_eq_false
          simp only [not_not, List.mem_append, List.mem_singleton]
          first
          | exact Or.inr rfl
          | exact Or.inr trivial
        · intro a _ ha
          rw [decide_eq_true_eq] at ha
          rw [decide_eq_true_eq]
          exact fun hmem => ha (List.mem_append_left _ hmem)
        · exact hR
      have hmul : (6 * g.edges.length + 2) * (((cycleUniverse g o).filter
            (fun v => decide (v ∉ s.expl ++ [s.root]))).length + 1) ≤
          (6 * g.edges.length + 2) * ((cycleUniverse g o).filter
            (fun v => decide (v ∉ s.expl))).length :=
        Nat.mul_le_mul_left _ hFlt
      have hcs : List.count s.root s.stack * g.edges.length ≤ g.edges.length := by
        calc List.count s.root s.stack * g.edges.length
            ≤ 1 * g.edges.length := Nat.mul_le_mul_right _ hcount
          _ = g.edges.length := Nat.one_mul _
      rw [Nat.mul_add, Nat.mul_one] at hmul
      simp only [List.map_cons, List.sum_cons, List.length_cons, hfr0]
      omega

/-- With fuel exceeding the measure, the loop always finishes. -/
theorem find_cycle_aux_ne_none (g : Graph) (o : Node) :
    ∀ fuel : Nat, ∀ s : FindCycleState, fcInv g o s →
      fcMeasure g o s < fuel → find_cycle_aux g o fuel s ≠ none := by
  intro fuel
  induction fuel with
  | zero =>
    intro s _ hlt
    exact absurd hlt (Nat.not_lt_zero _)
  | succ n ih =>
    intro s hinv hlt
    show (match find_cycle_step g o s with
      | .done r => some r
      | .next s' => find_cycle_aux g o n s') ≠ none
    cases hstep : find_cycle_step g o s with
    | done r => simp
    | next s' =>
      have hinv' := fcInv_preserved g o hinv hstep
      have hdec := fcMeasure_decreases g o hinv hstep
      exact ih s' hinv' (by omega)

/-- The initial measure is below the fuel `find_cycle` runs with. -/
theorem fcMeasure_init_lt_fuel (g : Graph) (o : Node) :
    fcMeasure g o ⟨[o], o, []⟩ < find_cycle_fuel g o := by
  unfold fcMeasure find_cycle_fuel
  have hfil : ((cycleUniverse g o).filter (fun v => decide (v ∉ ([] : List Node)))) =
      cycleUniverse g o := by
    apply List.filter_eq_self.2
    intro a _
    exact decide_eq_true (List.not_mem_nil a)
  have hw : fWeight g [] o = 0 := by
    unfold fWeight
    rw [if_neg (List.not_mem_nil o)]
  rw [hfil]
  simp only [List.map_cons, List.map_nil, List.sum_cons, List.sum_nil,
    List.length_singleton, hw]
  omega

/-! ## Claim C5 — termination of `_find_cycle` -/

/-- C5: on every finite graph and origin, the `while` loop of
`_find_cycle` terminates: running `find_cycle_step` from the initial
state with the fuel `find_cycle` uses never exhausts that fuel — the
loop always reaches an empty stack or a return first. -/
theorem claim_c5_find_cycle_terminates (g : Graph) (o : Node) :
    find_cycle_aux g o (find_cycle_fuel g o) ⟨[o], o, []⟩ ≠ none :=
  find_cycle_aux_ne_none g o (find_cycle_fuel g o) ⟨[o], o, []⟩
    (fcInv_init g o) (fcMeasure_init_lt_fuel g o)

/-! ## Shape of a returned cycle list -/

theorem fcPathInv_init (g : Graph) (o : Node) : fcPathInv g o ⟨[o], o, []⟩ := by
  constructor
  · intro _
    rfl
  · intro v hv _
    have hvo : v = o := by
      rcases hv with hv' | hv'
      · exact List.mem_singleton.1 hv'
      · exact hv'
    subst hvo
    exact ⟨rfl, rfl⟩

theorem fcPathInv_preserved (g : Graph) (o : Node) {s s' : FindCycleState}
    (hp : fcPathInv g o s) (h : find_cycle_step g o s = .next s') :
    fcPathInv g o s' := by
  obtain ⟨hB, hRet⟩ := hp
  rcases find_cycle_step_next_cases g o h with
    ⟨t, rest, hst, hno, rfl⟩ | ⟨t, rest, c, cs, hst, hfil, hno, rfl⟩
  · constructor
    · intro hne
      have hlast := hB (by rw [hst]; simp)
      rw [hst] at hlast
      cases hrest : rest with
      | nil => exact absurd hrest hne
      | cons b l =>
        rw [hrest, List.getLast?_cons_cons] at hlast
        exact hlast
    · intro v hv ho
      exfalso
      have hv' : v ∈ s.stack ∨ v = s.root := by
        rcases hv with hv' | hv'
        · exact Or.inl (hst ▸ List.mem_cons_of_mem t hv')
        · exact Or.inl (hst ▸ (hv' ▸ List.mem_cons_self t rest))
      have := (hRet v hv' ho).2
      rw [← this] at ho
      exact hno ho
  · constructor
    · intro _
      have hlast := hB (by rw [hst]; simp)
      have hne : s.stack ≠ [] := by rw [hst]; simp
      cases hss : s.stack with
      | nil => exact absurd hss hne
      | cons b l =>
        rw [List.getLast?_cons_cons]
        rw [hss] at hlast
        exact hlast
    · intro v hv ho
      rcases hv with hv' | hv'
      · rcases List.mem_cons.1 hv' with rfl | hv''
        · exact ⟨rfl, rfl⟩
        · exfalso
          have := (hRet v (Or.inl hv'') ho).2
          rw [← this] at ho
          exact hno ho
      · subst hv'
        exact ⟨rfl, rfl⟩

/-- A `.done (some l)` step from a state satisfying the path invariant
returns a non-empty list that starts at the origin and whose last
element has an outbound edge back to the origin. -/
theorem find_cycle_step_done_shape (g : Graph) (o : Node) {s : FindCycleState}
    {l : List Node} (hp : fcPathInv g o s)
    (h : find_cycle_step g o s = .done (some l)) :
    l ≠ [] ∧ l.head? = some o ∧ ∃ v, l.getLast? = some v ∧ o ∈ dests g v := by
  obtain ⟨hB, hRet⟩ := hp
  obtain ⟨hne, hl, ho⟩ := find_cycle_step_done_some g o h
  have hroot := hRet s.root (Or.inr rfl) ho
  refine ⟨?_, ?_, s.root, ?_, ho⟩
  · rw [hl]
    simpa using hne
  · rw [hl, List.head?_reverse]
    exact hB hne
  · rw [hl, List.getLast?_reverse]
    exact hroot.1

/-- Any list the fuel-indexed loop returns has the head/last-edge
shape, whatever the fuel. -/
theorem find_cycle_aux_shape (g : Graph) (o : Node) :
    ∀ fuel : Nat, ∀ s : FindCycleState, fcPathInv g o s →
      ∀ l : List Node, find_cycle_aux g o fuel s = some (some l) →
        l ≠ [] ∧ l.head? = some o ∧ ∃ v, l.getLast? = some v ∧ o ∈ dests g v := by
  intro fuel
  induction fuel with
  | zero =>
    intro s _ l hl
    exact absurd hl (by simp [find_cycle_aux])
  | succ n ih =>
    intro s hp l hl
    rw [show find_cycle_aux g o (n+1) s = (match find_cycle_step g o s with
      | .done r => some r
      | .next s' => find_cycle_aux g o n s') from rfl] at hl
    cases hstep : find_cycle_step g o s with
    | done r =>
      rw [hstep] at hl
      have hr : r = some l := by
        simpa using hl
      subst hr
      exact find_cycle_step_done_shape g o hp hstep
    | next s' =>
      rw [hstep] at hl
      exact ih s' (fcPathInv_preserved g o hp hstep) l hl

/-- `w ∈ dests g v` unpacked to an edge of the graph. -/
theorem mem_dests_iff (g : Graph) (v w : Node) :
    w ∈ dests g v ↔ ∃ e ∈ g.edges, e.source = v ∧ e.destination = w := by
  unfold dests get_outbound_edges
  simp only [List.mem_map, List.mem_filter, beq_iff_eq]
  constructor
  · rintro ⟨e, ⟨he, hs⟩, rfl⟩
    exact ⟨e, he, hs, rfl⟩
  · rintro ⟨e, he, hs, rfl⟩
    exact ⟨e, ⟨he, hs⟩, rfl⟩

/-! ## Claim C3 — shape of the list `_find_cycle` returns -/

/-- C3 counterexample: on `gSixNode`, `_find_cycle` started at `exA`
returns `[exA, exB, exE]`, but the consecutive pair `(exB, exE)` is
not connected by any edge of the graph — the returned list is not a
path `origin -> ... -> origin`.  (The flawed backtracking pops the
current root itself first, so the stack no longer mirrors the path
taken when `exE` is pushed from the re-expanded `exC`.) -/
theorem claim_c3_counterexample :
    find_cycle gSixNode exA = some [exA, exB, exE] ∧
    consecPairsAreEdges gSixNode [exA, exB, exE] = false := by
  decide

/-- C3 (amended): if `_find_cycle(graph, origin)` returns a list, the
list is non-empty, its first element is `origin`, and its last element
has an outbound edge whose destination is `origin`.  The original
claim's remaining conjuncts — that every consecutive pair of the list
is connected by an edge and that intermediate nodes are distinct — do
not hold of the code (see the counterexample; a self-loop also yields
duplicate entries). -/
theorem claim_c3_amended_returned_list_shape (g : Graph) (o : Node)
    (l : List Node) (h : find_cycle g o = some l) :
    l ≠ [] ∧ l.head? = some o ∧
      ∃ v, l.getLast? = some v ∧ ∃ e ∈ g.edges, e.source = v ∧ e.destination = o := by
  unfold find_cycle at h
  cases haux : find_cycle_aux g o (find_cycle_fuel g o) ⟨[o], o, []⟩ with
  | none =>
    rw [haux] at h
    exact absurd h (by simp)
  | some r =>
    rw [haux] at h
    have hr : r = some l := by simpa using h
    subst hr
    obtain ⟨h1, h2, v, h3, h4⟩ :=
      find_cycle_aux_shape g o (find_cycle_fuel g o) ⟨[o], o, []⟩
        (fcPathInv_init g o) l haux
    exact ⟨h1, h2, v, h3, (mem_dests_iff g v o).1 h4⟩

/-- Witness for C3's amended theorem on the triangle graph. -/
theorem claim_c3_witness :
    find_cycle gTriangle exA = some [exA, exB, exC] ∧
    ([exA, exB, exC] ≠ [] ∧ [exA, exB, exC].head? = some exA ∧
      ∃ v, [exA, exB, exC].getLast? = some v ∧
        ∃ e ∈ gTriangle.edges, e.source = v ∧ e.destination = exA) :=
  ⟨by decide,
   claim_c3_amended_returned_list_shape gTriangle exA [exA, exB, exC] (by decide)⟩
